import Mathlib

/-!
Shallow embedding of `src/basic/bitmap.c` (systemd's Bitmap module) and
proofs of the specification claims about it.

Modelling conventions:
* `uint64_t` words are `Nat` values kept below `2 ^ 64`; all bitwise
  operations of the C code (`|`, `&`, `~`, `<<`) are translated with the
  corresponding `Nat` operations, with `~mask` rendered as
  `UINT64_MAX ^^^ mask`.
* The `Bitmap` struct's `bitmaps` pointer together with
  `bitmaps_allocated` is modelled as a `List Nat` holding the allocated
  words (its length is the allocated capacity); `n_bitmaps` is kept as a
  separate field, exactly as in the struct.
* A `Bitmap *` handle at the API boundary is `Option Bitmap`; `none` is
  the NULL (absent) handle.
* Fallible allocation is modelled by a boolean oracle `allocOk` passed to
  the operations that allocate; C functions returning `int` error codes
  become functions returning `Int × Bitmap` (code, updated state).
-/

set_option maxRecDepth 10000

/-- The Bitmap struct: allocated word array (its length is
`bitmaps_allocated`) and the logical length `n_bitmaps`. -/
structure Bitmap where
  bitmaps : List Nat
  n_bitmaps : Nat
deriving DecidableEq, Repr

/-- Field `bitmaps_allocated` of the struct: the allocation size of the
`bitmaps` array. -/
def Bitmap.bitmaps_allocated (b : Bitmap) : Nat := b.bitmaps.length

/-- Source macro `#define BITMAPS_MAX_ENTRY 0xffff`. -/
def BITMAPS_MAX_ENTRY : Nat := 0xffff

/-- Source macro `#define BITMAP_END ((unsigned) -1)`. -/
def BITMAP_END : Nat := 2 ^ 32 - 1

/-- Constant `UINT64_MAX`, used to model `~bitmask` as `UINT64_MAX ^^^ bitmask`. -/
def UINT64_MAX : Nat := 2 ^ 64 - 1

/-- Magnitude of the `-ERANGE` error code. -/
def ERANGE : Int := 34

/-- Magnitude of the `-ENOMEM` error code. -/
def ENOMEM : Int := 12

/-- Source macro `BITMAP_NUM_TO_OFFSET(n)`: `(n) / (sizeof(uint64_t) * 8)`. -/
def BITMAP_NUM_TO_OFFSET (n : Nat) : Nat := n / 64

/-- Source macro `BITMAP_NUM_TO_REM(n)`: `(n) % (sizeof(uint64_t) * 8)`. -/
def BITMAP_NUM_TO_REM (n : Nat) : Nat := n % 64

/-- Source macro `BITMAP_OFFSET_TO_NUM(offset, rem)`: `(offset) * sizeof(uint64_t) * 8 + (rem)`. -/
def BITMAP_OFFSET_TO_NUM (offset rem : Nat) : Nat := offset * 64 + rem

/-- Function `bitmap_new`: `new0(Bitmap, 1)` — all fields zeroed, no word array. -/
def bitmap_new : Bitmap := ⟨[], 0⟩

/-- Modelled from the spec: `GREEDY_REALLOC0` (from `alloc-util.h`, which is
not part of this repository's sources) is the generic growable-array
amortized-growth helper.  When the allocated capacity already covers `need`
it leaves the array untouched; otherwise it grows the allocation to at
least `need` words — possibly more (amortized growth) — and zero-fills the
newly allocated words.  We fix the over-allocating capacity to
`max (2 * need) 8`, mirroring systemd's greedy growth; the claims depend
only on the new capacity being at least `need` and on the zero fill. -/
def greedy_realloc0 (ws : List Nat) (need : Nat) : List Nat :=
  if need ≤ ws.length then ws
  else ws ++ List.replicate (max (2 * need) 8 - ws.length) 0

/-- Function `bitmap_set(Bitmap *b, unsigned n)`; `assert(b)` makes a present bitmap
a precondition, so the handle argument is `Bitmap`, not `Option Bitmap`.
`allocOk` is the allocation oracle: `GREEDY_REALLOC0` fails exactly when it
actually needs to reallocate and `allocOk` is `false`, in which case it
leaves the array and capacity untouched.  Returns the `int` result and the
(possibly updated) bitmap. -/
def bitmap_set (allocOk : Bool) (b : Bitmap) (n : Nat) : Int × Bitmap :=
  if n > BITMAPS_MAX_ENTRY then (-ERANGE, b)
  else
    let offset := BITMAP_NUM_TO_OFFSET n
    if b.n_bitmaps ≤ offset then
      if b.bitmaps_allocated < offset + 1 ∧ allocOk = false then (-ENOMEM, b)
      else
        let ws := greedy_realloc0 b.bitmaps (offset + 1)
        let bitmask := 1 <<< BITMAP_NUM_TO_REM n
        (0, ⟨ws.set offset (ws.getD offset 0 ||| bitmask), offset + 1⟩)
    else
      let bitmask := 1 <<< BITMAP_NUM_TO_REM n
      (0, ⟨b.bitmaps.set offset (b.bitmaps.getD offset 0 ||| bitmask), b.n_bitmaps⟩)

/-- Body of `bitmap_unset` after the NULL check. -/
def bitmap_unset_core (b : Bitmap) (n : Nat) : Bitmap :=
  let offset := BITMAP_NUM_TO_OFFSET n
  if b.n_bitmaps ≤ offset then b
  else
    let bitmask := 1 <<< BITMAP_NUM_TO_REM n
    ⟨b.bitmaps.set offset (b.bitmaps.getD offset 0 &&& (UINT64_MAX ^^^ bitmask)),
     b.n_bitmaps⟩

/-- Function `bitmap_unset(Bitmap *b, unsigned n)`: no-op on a NULL handle. -/
def bitmap_unset : Option Bitmap → Nat → Option Bitmap
  | none, _ => none
  | some b, n => some (bitmap_unset_core b n)

/-- Function `bitmap_isset(Bitmap *b, unsigned n)`. -/
def bitmap_isset : Option Bitmap → Nat → Bool
  | none, _ => false
  | some b, n =>
    let offset := BITMAP_NUM_TO_OFFSET n
    if b.n_bitmaps ≤ offset then false
    else decide (b.bitmaps.getD offset 0 &&& (1 <<< BITMAP_NUM_TO_REM n) ≠ 0)

/-- Function `bitmap_isclear(Bitmap *b)`: true on NULL, else all words in use zero. -/
def bitmap_isclear : Option Bitmap → Bool
  | none => true
  | some b => (b.bitmaps.take b.n_bitmaps).all (fun w => w == 0)

/-- Body of `bitmap_clear` after the NULL check: frees the word array and
zeroes both length fields. -/
def bitmap_clear_core (_ : Bitmap) : Bitmap := ⟨[], 0⟩

/-- Function `bitmap_clear(Bitmap *b)`: no-op on a NULL handle. -/
def bitmap_clear : Option Bitmap → Option Bitmap
  | none => none
  | some b => some (bitmap_clear_core b)

/-- Function `bitmap_copy(Bitmap *b)`: unconditionally reads `b->bitmaps` and
`b->n_bitmaps`, so a present bitmap is a precondition (the argument type is
`Bitmap`, not `Option Bitmap`).  `allocOk` models the two allocations
(`bitmap_new` and `newdup`); on failure the result is NULL.  On success the
copy holds the first `n_bitmaps` words and has
`n_bitmaps = bitmaps_allocated = b.n_bitmaps` (line 65 of the source). -/
def bitmap_copy (allocOk : Bool) (b : Bitmap) : Option Bitmap :=
  if allocOk then some ⟨b.bitmaps.take b.n_bitmaps, b.n_bitmaps⟩ else none

/-- Function `bitmap_equal(Bitmap *a, Bitmap *b)`.  The C code's initial pointer
identity short-circuit `a == b` is absorbed: identical pointers imply
identical values, on which the value comparison below also returns true.
Then: exactly one NULL → false; both NULL → true; otherwise memcmp of the
common prefix followed by the all-zero check of the longer tail up to its
`n_bitmaps`. -/
def bitmap_equal : Option Bitmap → Option Bitmap → Bool
  | none, none => true
  | none, some _ => false
  | some _, none => false
  | some a, some b =>
    let common_n_bitmaps := min a.n_bitmaps b.n_bitmaps
    if a.bitmaps.take common_n_bitmaps ≠ b.bitmaps.take common_n_bitmaps then false
    else
      let c := if b.n_bitmaps < a.n_bitmaps then a else b
      (List.range' common_n_bitmaps (c.n_bitmaps - common_n_bitmaps)).all
        (fun i => c.bitmaps.getD i 0 == 0)

/-- Inner loop of `bitmap_iterate`, fueled: starting from bit `rem` of
word `w`, find the lowest set bit.  In C this is the `for (; bitmask;
bitmask <<= 1, rem++)` loop, which stops when the shifted `uint64_t` mask
overflows to 0, i.e. at bit index 64; the fuel is the remaining iteration
count `64 - rem`. -/
def scanWordAux (w : Nat) : Nat → Nat → Option Nat
  | 0, _ => none
  | fuel + 1, rem =>
    if w &&& (1 <<< rem) ≠ 0 then some rem
    else scanWordAux w fuel (rem + 1)

/-- Inner loop of `bitmap_iterate`: lowest set bit of `w` at index `≥ rem`
(and `< 64`), if any. -/
def scanWord (w rem : Nat) : Option Nat := scanWordAux w (64 - rem) rem

/-- Outer loop of `bitmap_iterate`, fueled: scan words `offset,
offset+1, ...` up to `n_bitmaps`, the first word starting at bit `rem`, the
following ones at bit 0; skip all-zero words.  The fuel is the remaining
word count `n_bitmaps - offset`. -/
def bitmap_scanAux (b : Bitmap) : Nat → Nat → Nat → Option (Nat × Nat)
  | 0, _, _ => none
  | fuel + 1, offset, rem =>
    if b.bitmaps.getD offset 0 ≠ 0 then
      match scanWord (b.bitmaps.getD offset 0) rem with
      | some r => some (offset, r)
      | none => bitmap_scanAux b fuel (offset + 1) 0
    else bitmap_scanAux b fuel (offset + 1) 0

/-- Outer loop of `bitmap_iterate`: position `(offset, rem)` of the first
set bit at or after bit `rem` of word `offset`, scanning up to
`n_bitmaps`. -/
def bitmap_scan (b : Bitmap) (offset rem : Nat) : Option (Nat × Nat) :=
  bitmap_scanAux b (b.n_bitmaps - offset) offset rem

/-- Function `bitmap_iterate(Bitmap *b, Iterator *i, unsigned *n)`: the state
`(i->idx, *n)` is passed and returned explicitly; the result is
`(return value, new i->idx, new *n)`.  On a NULL bitmap or an exhausted
cursor it returns false leaving both locations untouched. -/
def bitmap_iterate : Option Bitmap → Nat → Nat → Bool × Nat × Nat
  | none, i, n => (false, i, n)
  | some b, i, n =>
    if i = BITMAP_END then (false, i, n)
    else
      match bitmap_scan b (BITMAP_NUM_TO_OFFSET i) (BITMAP_NUM_TO_REM i) with
      | some (offset, rem) =>
          (true, BITMAP_OFFSET_TO_NUM offset rem + 1, BITMAP_OFFSET_TO_NUM offset rem)
      | none => (false, BITMAP_END, n)

/-- Caller loop threading one cursor through `bitmap_iterate`, collecting
the produced members; `fuel` bounds the number of calls (a full traversal
needs at most `n_bitmaps * 64 + 1`). -/
def bitmap_iterate_loop (ob : Option Bitmap) (fuel i n : Nat) : List Nat :=
  match fuel with
  | 0 => []
  | fuel + 1 =>
    match bitmap_iterate ob i n with
    | (true, i2, n2) => n2 :: bitmap_iterate_loop ob fuel i2 n2
    | (false, _, _) => []

/-- Enough `bitmap_iterate` calls to exhaust the bitmap. -/
def iterFuel : Option Bitmap → Nat
  | none => 1
  | some b => b.n_bitmaps * 64 + 1

/-- Full traversal: thread one cursor starting at 0 until exhaustion. -/
def bitmap_iterate_all (ob : Option Bitmap) : List Nat :=
  bitmap_iterate_loop ob (iterFuel ob) 0 0

/-- Well-formedness of a `Bitmap` value: the logical length does not exceed
the allocation, and every allocated word is a `uint64_t` value. -/
def Bitmap.Valid (b : Bitmap) : Prop :=
  b.n_bitmaps ≤ b.bitmaps.length ∧ ∀ w ∈ b.bitmaps, w < 2 ^ 64

instance (b : Bitmap) : Decidable b.Valid := by
  unfold Bitmap.Valid; infer_instance

/-- Mutating operations on a present bitmap, for stating claims about
"any finite sequence of set/unset operations" (and `clear`). -/
inductive Op where
  | set : Nat → Bool → Op
  | unset : Nat → Op
  | clear : Op

/-- Apply one operation to a present bitmap (a failed `set` leaves the
state unchanged, as the code does). -/
def applyOp (b : Bitmap) : Op → Bitmap
  | .set n ok => (bitmap_set ok b n).2
  | .unset n => bitmap_unset_core b n
  | .clear => bitmap_clear_core b

/-- Run a sequence of operations from a fresh bitmap. -/
def applyOps (ops : List Op) : Bitmap := ops.foldl applyOp bitmap_new

/-- Ghost simulation for the length invariant: alongside the bitmap, track
"highest word index touched by a successful `set` since creation or the
last `clear`, plus one" (0 when there has been none). -/
def simStep : Bitmap × Nat → Op → Bitmap × Nat
  | (b, t), .set n ok =>
    ((bitmap_set ok b n).2,
     if (bitmap_set ok b n).1 = 0 then max t (BITMAP_NUM_TO_OFFSET n + 1) else t)
  | (b, t), .unset n => (bitmap_unset_core b n, t)
  | (b, _), .clear => (bitmap_clear_core b, 0)

/-- Run the ghost simulation from a fresh bitmap. -/
def sim (ops : List Op) : Bitmap × Nat := ops.foldl simStep (bitmap_new, 0)

/-- A copy of `b` with `k` additional trailing zero words appended to its
logical word sequence (used to state trailing-zero-insensitivity of
`bitmap_equal`). -/
def padZeros (b : Bitmap) (k : Nat) : Bitmap :=
  ⟨b.bitmaps.take b.n_bitmaps ++ List.replicate k 0, b.n_bitmaps + k⟩

example : bitmap_isset (some (bitmap_set true bitmap_new 5).2) 5 = true := by decide

example :
    bitmap_iterate_all
      (some (applyOps [.set 3 true, .set 70 true, .set 1000 true])) =
      [3, 70, 1000] := by decide

example : bitmap_equal (some bitmap_new) none = false := by decide

/-! ## Basic bit-level and list-level helper lemmas -/

lemma and_shift_ne_zero_iff (w r : Nat) : (w &&& (1 <<< r) ≠ 0) ↔ w.testBit r := by
  rw [Nat.one_shiftLeft]
  constructor
  · intro h
    by_contra hb
    rw [Bool.not_eq_true] at hb
    apply h
    apply Nat.eq_of_testBit_eq
    intro i
    rw [Nat.testBit_and, Nat.zero_testBit, Nat.testBit_two_pow]
    rcases eq_or_ne r i with h1 | h1
    · subst h1; simp [hb]
    · simp [h1]
  · intro h h0
    have h2 := congrArg (fun x => Nat.testBit x r) h0
    simp [Nat.testBit_and, Nat.testBit_two_pow, h] at h2

lemma isset_iff (b : Bitmap) (n : Nat) :
    bitmap_isset (some b) n = true ↔
      n / 64 < b.n_bitmaps ∧ (b.bitmaps.getD (n / 64) 0).testBit (n % 64) := by
  show (if b.n_bitmaps ≤ BITMAP_NUM_TO_OFFSET n then false
    else decide (b.bitmaps.getD (BITMAP_NUM_TO_OFFSET n) 0 &&&
      (1 <<< BITMAP_NUM_TO_REM n) ≠ 0)) = true ↔ _
  unfold BITMAP_NUM_TO_OFFSET BITMAP_NUM_TO_REM
  split
  · next h => simp; omega
  · next h =>
    rw [decide_eq_true_iff, and_shift_ne_zero_iff]
    constructor
    · exact fun hb => ⟨by omega, hb⟩
    · exact fun hb => hb.2

lemma getD_set_self {l : List Nat} {i v : Nat} (h : i < l.length) :
    (l.set i v).getD i 0 = v := by
  simp [List.getD_eq_getElem?_getD, List.getElem?_set_self h]

lemma getD_set_ne {l : List Nat} {i j v : Nat} (h : i ≠ j) :
    (l.set i v).getD j 0 = l.getD j 0 := by
  simp [List.getD_eq_getElem?_getD, List.getElem?_set_ne h]

lemma greedy_length_ge (ws : List Nat) (need : Nat) :
    need ≤ (greedy_realloc0 ws need).length := by
  unfold greedy_realloc0
  split
  · assumption
  · simp; omega

lemma bitmap_equal_refl (b : Bitmap) : bitmap_equal (some b) (some b) = true := by
  simp [bitmap_equal]

/-! ## C1 -/

/-- C1 is false on the code: a present bitmap with no set bits does not
compare equal to the NULL handle — `bitmap_equal` returns false whenever
exactly one of the two handles is NULL. -/
theorem C1_counterexample :
    bitmap_isclear (some bitmap_new) = true ∧
    bitmap_equal (some bitmap_new) none = false := by decide

/-- C1 (amended): if exactly one of `a` and `b` is absent, `equal(a, b)`
returns false, even when the present one has no set bits; in particular
equality never holds with exactly one side absent, so "equality holds only
if the present one has no set bits" holds vacuously. -/
theorem C1_amended (a : Bitmap) :
    bitmap_equal (some a) none = false ∧ bitmap_equal none (some a) = false :=
  ⟨rfl, rfl⟩

/-! ## C3 -/

/-- C3: for any present bitmap and any `n` above `BITMAPS_MAX_ENTRY`
(65535), `bitmap_set` returns `-ERANGE` and performs no mutation: the
result state is exactly the pre-call state, hence also `bitmap_equal` to a
pre-call copy. -/
theorem C3_set_out_of_range (b : Bitmap) (n : Nat) (allocOk : Bool)
    (h : BITMAPS_MAX_ENTRY < n) :
    bitmap_set allocOk b n = (-ERANGE, b) ∧
    bitmap_equal (some (bitmap_set allocOk b n).2) (some b) = true := by
  have h1 : bitmap_set allocOk b n = (-ERANGE, b) := by
    unfold bitmap_set
    rw [if_pos h]
  exact ⟨h1, by rw [h1]; exact bitmap_equal_refl b⟩

theorem C3_witness :
    BITMAPS_MAX_ENTRY < 65536 ∧
    (bitmap_set true ⟨[3], 1⟩ 65536 = (-ERANGE, ⟨[3], 1⟩) ∧
     bitmap_equal (some (bitmap_set true ⟨[3], 1⟩ 65536).2) (some ⟨[3], 1⟩) = true) :=
  ⟨by decide, C3_set_out_of_range ⟨[3], 1⟩ 65536 true (by decide)⟩

/-! ## C4 -/

/-- C4: when `bitmap_set` fails with `-ENOMEM` (growth allocation failure),
the bitmap is left in its prior state: same value, hence same logical
length and same allocated capacity. -/
theorem C4_set_oom_no_mutation (b : Bitmap) (n : Nat) (allocOk : Bool)
    (h : (bitmap_set allocOk b n).1 = -ENOMEM) :
    (bitmap_set allocOk b n).2 = b ∧
    ((bitmap_set allocOk b n).2).n_bitmaps = b.n_bitmaps ∧
    ((bitmap_set allocOk b n).2).bitmaps_allocated = b.bitmaps_allocated := by
  have h2 : (bitmap_set allocOk b n).2 = b := by
    by_cases h1 : n > BITMAPS_MAX_ENTRY
    · simp [bitmap_set, h1]
    · by_cases hoff : b.n_bitmaps ≤ BITMAP_NUM_TO_OFFSET n
      · by_cases hmem : b.bitmaps_allocated < BITMAP_NUM_TO_OFFSET n + 1 ∧ allocOk = false
        · simp [bitmap_set, h1, hoff, hmem]
        · exfalso
          simp [bitmap_set, h1, hoff, hmem, ENOMEM] at h
      · exfalso
        simp [bitmap_set, h1, hoff, ENOMEM] at h
  exact ⟨h2, by rw [h2], by rw [h2]⟩

theorem C4_witness :
    (bitmap_set false bitmap_new 0).1 = -ENOMEM ∧
    (bitmap_set false bitmap_new 0).2 = bitmap_new :=
  ⟨by decide, (C4_set_oom_no_mutation bitmap_new 0 false (by decide)).1⟩

/-! ## C7 -/

/-- C7: on a NULL bitmap, or once the cursor holds the end sentinel
`BITMAP_END`, `bitmap_iterate` signals exhaustion (returns false) without
modifying the cursor or the output location — so it never produces another
member.  (The bitmap argument is read-only in `bitmap_iterate` by its
type.) -/
theorem C7_iterate_after_exhaustion (b : Option Bitmap) (i n : Nat)
    (h : b = none ∨ i = BITMAP_END) :
    bitmap_iterate b i n = (false, i, n) := by
  rcases h with h | h
  · subst h; rfl
  · subst h
    cases b with
    | none => rfl
    | some b' => simp [bitmap_iterate]

theorem C7_witness : bitmap_iterate none 0 0 = (false, 0, 0) :=
  C7_iterate_after_exhaustion none 0 0 (Or.inl rfl)

/-! ## C10 -/

/-- C10: `bitmap_copy` takes a present bitmap (the C code unconditionally
dereferences `b`, so presence is a precondition, reflected here in the
argument type `Bitmap` rather than `Option Bitmap`); whenever it succeeds,
the copy's logical length and allocated capacity both equal the original's
logical length. -/
theorem C10_copy_shape (b : Bitmap) (allocOk : Bool) (hv : b.Valid) :
    ∀ c, bitmap_copy allocOk b = some c →
      c.n_bitmaps = b.n_bitmaps ∧ c.bitmaps_allocated = b.n_bitmaps := by
  intro c hc
  unfold bitmap_copy at hc
  split at hc
  · cases hc
    refine ⟨rfl, ?_⟩
    simp [Bitmap.bitmaps_allocated]
    exact hv.1
  · cases hc

theorem C10_witness :
    Bitmap.Valid ⟨[5], 1⟩ ∧
    ((⟨[5], 1⟩ : Bitmap).n_bitmaps = (⟨[5], 1⟩ : Bitmap).n_bitmaps ∧
     (⟨[5], 1⟩ : Bitmap).bitmaps_allocated = (⟨[5], 1⟩ : Bitmap).n_bitmaps) :=
  ⟨by decide, C10_copy_shape ⟨[5], 1⟩ true (by decide) ⟨[5], 1⟩ rfl⟩

/-! ## C2 -/

lemma getD_oob {l : List Nat} {i : Nat} (h : l.length ≤ i) : l.getD i 0 = 0 := by
  simp [List.getD_eq_getElem?_getD, List.getElem?_eq_none h]

lemma bitmap_set_success (allocOk : Bool) (b : Bitmap) (n : Nat) (hv : b.Valid)
    (h : (bitmap_set allocOk b n).1 = 0) :
    ∃ (ws : List Nat) (N : Nat), (bitmap_set allocOk b n).2 =
        ⟨ws.set (n / 64) (ws.getD (n / 64) 0 ||| (1 <<< (n % 64))), N⟩ ∧
      n / 64 < N ∧ n / 64 < ws.length := by
  by_cases h1 : n > BITMAPS_MAX_ENTRY
  · simp [bitmap_set, h1, ERANGE] at h
  · by_cases hoff : b.n_bitmaps ≤ BITMAP_NUM_TO_OFFSET n
    · by_cases hmem : b.bitmaps_allocated < BITMAP_NUM_TO_OFFSET n + 1 ∧ allocOk = false
      · simp [bitmap_set, h1, hoff, hmem, ENOMEM] at h
      · refine ⟨greedy_realloc0 b.bitmaps (BITMAP_NUM_TO_OFFSET n + 1),
          BITMAP_NUM_TO_OFFSET n + 1, ?_, ?_, ?_⟩
        · unfold BITMAP_NUM_TO_OFFSET at hoff hmem
          simp [bitmap_set, h1, hoff, hmem, BITMAP_NUM_TO_OFFSET, BITMAP_NUM_TO_REM]
        · unfold BITMAP_NUM_TO_OFFSET; omega
        · have hg := greedy_length_ge b.bitmaps (BITMAP_NUM_TO_OFFSET n + 1)
          unfold BITMAP_NUM_TO_OFFSET at hg ⊢
          omega
    · refine ⟨b.bitmaps, b.n_bitmaps, ?_, ?_, ?_⟩
      · have hoff2 := hoff
        unfold BITMAP_NUM_TO_OFFSET at hoff2
        simp [bitmap_set, h1, hoff2, BITMAP_NUM_TO_OFFSET, BITMAP_NUM_TO_REM]
      · unfold BITMAP_NUM_TO_OFFSET at hoff; omega
      · have hval := hv.1
        unfold BITMAP_NUM_TO_OFFSET at hoff
        omega

lemma isset_after_or (ws : List Nat) (N n : Nat) (hN : n / 64 < N)
    (hlen : n / 64 < ws.length) :
    bitmap_isset
      (some ⟨ws.set (n / 64) (ws.getD (n / 64) 0 ||| (1 <<< (n % 64))), N⟩) n = true := by
  rw [isset_iff]
  refine ⟨hN, ?_⟩
  show ((ws.set (n / 64) _).getD (n / 64) 0).testBit (n % 64)
  rw [getD_set_self hlen]
  simp [Nat.testBit_or, Nat.one_shiftLeft, Nat.testBit_two_pow_self]

lemma isset_unset_core_self (b : Bitmap) (n : Nat) :
    bitmap_isset (some (bitmap_unset_core b n)) n = false := by
  by_cases hoff : b.n_bitmaps ≤ BITMAP_NUM_TO_OFFSET n
  · simp only [bitmap_unset_core, if_pos hoff]
    simp [bitmap_isset, hoff]
  · simp only [bitmap_unset_core, if_neg hoff]
    rw [Bool.eq_false_iff]
    intro hc
    rw [isset_iff] at hc
    have hrem : n % 64 < 64 := by omega
    by_cases hlen : n / 64 < b.bitmaps.length
    · have hw := hc.2
      rw [show BITMAP_NUM_TO_OFFSET n = n / 64 from rfl] at hw
      rw [show (Bitmap.mk
          (b.bitmaps.set (n / 64)
            (b.bitmaps.getD (n / 64) 0 &&& (UINT64_MAX ^^^ 1 <<< BITMAP_NUM_TO_REM n)))
          b.n_bitmaps).bitmaps =
          b.bitmaps.set (n / 64)
            (b.bitmaps.getD (n / 64) 0 &&& (UINT64_MAX ^^^ 1 <<< BITMAP_NUM_TO_REM n))
          from rfl] at hw
      rw [getD_set_self hlen] at hw
      rw [Nat.testBit_and, Nat.testBit_xor, Nat.one_shiftLeft] at hw
      rw [show UINT64_MAX = 2 ^ 64 - 1 from rfl] at hw
      rw [Nat.testBit_two_pow_sub_one] at hw
      rw [show BITMAP_NUM_TO_REM n = n % 64 from rfl] at hw
      rw [Nat.testBit_two_pow_self] at hw
      simp [hrem] at hw
    · have hset : b.bitmaps.set (BITMAP_NUM_TO_OFFSET n)
          (b.bitmaps.getD (BITMAP_NUM_TO_OFFSET n) 0 &&&
            (UINT64_MAX ^^^ 1 <<< BITMAP_NUM_TO_REM n)) = b.bitmaps := by
        apply List.set_eq_of_length_le
        unfold BITMAP_NUM_TO_OFFSET
        omega
      rw [hset] at hc
      have h0 : b.bitmaps.getD (n / 64) 0 = 0 := getD_oob (by omega)
      have hw := hc.2
      rw [show (Bitmap.mk b.bitmaps b.n_bitmaps).bitmaps = b.bitmaps from rfl] at hw
      rw [h0] at hw
      simp at hw

/-- C2: for a valid present bitmap and `n ≤ 65535`, immediately after a
successful `bitmap_set(b, n)` the bit reads back set via `bitmap_isset`,
and after a subsequent `bitmap_unset(b, n)` it reads back clear. -/
theorem C2_set_isset_unset_roundtrip (b : Bitmap) (n : Nat) (allocOk : Bool)
    (hv : b.Valid) (_hn : n ≤ 65535) (h : (bitmap_set allocOk b n).1 = 0) :
    bitmap_isset (some (bitmap_set allocOk b n).2) n = true ∧
    bitmap_isset (some (bitmap_unset_core (bitmap_set allocOk b n).2 n)) n = false := by
  obtain ⟨ws, N, heq, hN, hlen⟩ := bitmap_set_success allocOk b n hv h
  exact ⟨by rw [heq]; exact isset_after_or ws N n hN hlen,
         isset_unset_core_self _ n⟩

theorem C2_witness :
    Bitmap.Valid bitmap_new ∧ (5 : Nat) ≤ 65535 ∧
    (bitmap_set true bitmap_new 5).1 = 0 ∧
    (bitmap_isset (some (bitmap_set true bitmap_new 5).2) 5 = true ∧
     bitmap_isset (some (bitmap_unset_core (bitmap_set true bitmap_new 5).2 5)) 5 = false) :=
  ⟨by decide, by decide, by decide,
   C2_set_isset_unset_roundtrip bitmap_new 5 true (by decide) (by decide) (by decide)⟩

/-! ## C8 -/

lemma testBit_getD_set_clear (l : List Nat) (n m : Nat) (hm : m ≠ n) :
    ((l.set (n / 64)
        (l.getD (n / 64) 0 &&& (UINT64_MAX ^^^ 1 <<< (n % 64)))).getD (m / 64) 0).testBit
      (m % 64) = (l.getD (m / 64) 0).testBit (m % 64) := by
  by_cases hdiv : n / 64 = m / 64
  · by_cases hlen : n / 64 < l.length
    · rw [← hdiv, getD_set_self hlen]
      have hrm : n % 64 ≠ m % 64 := by omega
      have hlt : m % 64 < 64 := by omega
      rw [Nat.testBit_and, Nat.testBit_xor, Nat.one_shiftLeft,
          show UINT64_MAX = 2 ^ 64 - 1 from rfl, Nat.testBit_two_pow_sub_one,
          Nat.testBit_two_pow_of_ne hrm, hdiv]
      simp [hlt]
    · rw [List.set_eq_of_length_le (by omega)]
  · rw [getD_set_ne hdiv]

lemma unset_core_n_bitmaps (b : Bitmap) (n : Nat) :
    (bitmap_unset_core b n).n_bitmaps = b.n_bitmaps := by
  simp only [bitmap_unset_core]
  split <;> rfl

lemma unset_core_length (b : Bitmap) (n : Nat) :
    (bitmap_unset_core b n).bitmaps.length = b.bitmaps.length := by
  simp only [bitmap_unset_core]
  split
  · rfl
  · simp

lemma unset_frame (b : Bitmap) (n m : Nat) (hm : m ≠ n) :
    bitmap_isset (some (bitmap_unset_core b n)) m = bitmap_isset (some b) m := by
  by_cases hoff : b.n_bitmaps ≤ BITMAP_NUM_TO_OFFSET n
  · simp only [bitmap_unset_core, if_pos hoff]
  · simp only [bitmap_unset_core, if_neg hoff]
    rw [Bool.eq_iff_iff, isset_iff, isset_iff]
    dsimp only
    rw [show BITMAP_NUM_TO_REM n = n % 64 from rfl,
        show BITMAP_NUM_TO_OFFSET n = n / 64 from rfl,
        testBit_getD_set_clear b.bitmaps n m hm]

/-- C8: `bitmap_unset` is total and never fails: it is a no-op on a NULL
handle, and a no-op on a present bitmap when `n`'s word offset is at or
beyond the logical length; in every case it leaves the logical length and
the allocated capacity unchanged and modifies no bit other than bit `n`. -/
theorem C8_unset_total_frame (b : Bitmap) (n : Nat) :
    bitmap_unset none n = none ∧
    bitmap_unset (some b) n = some (bitmap_unset_core b n) ∧
    (bitmap_unset_core b n).n_bitmaps = b.n_bitmaps ∧
    (bitmap_unset_core b n).bitmaps_allocated = b.bitmaps_allocated ∧
    (b.n_bitmaps ≤ BITMAP_NUM_TO_OFFSET n → bitmap_unset_core b n = b) ∧
    ∀ m, m ≠ n →
      bitmap_isset (some (bitmap_unset_core b n)) m = bitmap_isset (some b) m := by
  refine ⟨rfl, rfl, unset_core_n_bitmaps b n, unset_core_length b n, ?_, ?_⟩
  · intro h
    simp only [bitmap_unset_core]
    rw [if_pos h]
  · intro m hm
    exact unset_frame b n m hm

theorem C8_witness :
    bitmap_unset none 3 = none ∧
    bitmap_unset (some ⟨[255], 1⟩) 3 = some (bitmap_unset_core ⟨[255], 1⟩ 3) ∧
    (bitmap_unset_core ⟨[255], 1⟩ 3).n_bitmaps = (⟨[255], 1⟩ : Bitmap).n_bitmaps ∧
    (bitmap_unset_core ⟨[255], 1⟩ 3).bitmaps_allocated =
      (⟨[255], 1⟩ : Bitmap).bitmaps_allocated ∧
    ((⟨[255], 1⟩ : Bitmap).n_bitmaps ≤ BITMAP_NUM_TO_OFFSET 3 →
      bitmap_unset_core ⟨[255], 1⟩ 3 = ⟨[255], 1⟩) ∧
    (∀ m, m ≠ 3 →
      bitmap_isset (some (bitmap_unset_core ⟨[255], 1⟩ 3)) m =
        bitmap_isset (some ⟨[255], 1⟩) m) :=
  C8_unset_total_frame ⟨[255], 1⟩ 3

/-! ## C5 -/

lemma getD_take_eq {l : List Nat} {k i : Nat} (h : i < k) :
    (l.take k).getD i 0 = l.getD i 0 := by
  simp [List.getD_eq_getElem?_getD, List.getElem?_take_of_lt h]

lemma valid_word_lt (b : Bitmap) (hv : b.Valid) (i : Nat) :
    b.bitmaps.getD i 0 < 2 ^ 64 := by
  by_cases h : i < b.bitmaps.length
  · have hmem : b.bitmaps.getD i 0 ∈ b.bitmaps := by
      rw [List.getD_eq_getElem?_getD, List.getElem?_eq_getElem h]
      exact List.getElem_mem h
    exact hv.2 _ hmem
  · rw [getD_oob (by omega)]
    norm_num

lemma word_eq_iff_testBit_eq {x y : Nat} (hx : x < 2 ^ 64) (hy : y < 2 ^ 64) :
    x = y ↔ ∀ r, r < 64 → x.testBit r = y.testBit r := by
  constructor
  · intro h r _
    rw [h]
  · intro h
    apply Nat.eq_of_testBit_eq
    intro i
    by_cases hi : i < 64
    · exact h i hi
    · have h64 : (2 : Nat) ^ 64 ≤ 2 ^ i := Nat.pow_le_pow_right (by norm_num) (by omega)
      rw [Nat.testBit_lt_two_pow (by omega), Nat.testBit_lt_two_pow (by omega)]

lemma word_zero_of_not_member (x : Bitmap) (hx : x.Valid) (i : Nat)
    (hi : i < x.n_bitmaps)
    (h : ∀ r, r < 64 → bitmap_isset (some x) (i * 64 + r) = false) :
    x.bitmaps.getD i 0 = 0 := by
  apply Nat.eq_of_testBit_eq
  intro r
  rw [Nat.zero_testBit]
  by_cases hr : r < 64
  · cases hbit : (x.bitmaps.getD i 0).testBit r with
    | false => rfl
    | true =>
      exfalso
      have hm : bitmap_isset (some x) (i * 64 + r) = true := by
        rw [isset_iff]
        have hdiv : (i * 64 + r) / 64 = i := by omega
        have hmod : (i * 64 + r) % 64 = r := by omega
        rw [hdiv, hmod]
        exact ⟨hi, hbit⟩
      rw [h r hr] at hm
      simp at hm
  · have h64 : (2 : Nat) ^ 64 ≤ 2 ^ r := Nat.pow_le_pow_right (by norm_num) (by omega)
    have := valid_word_lt x hx i
    exact Nat.testBit_lt_two_pow (by omega)

lemma equal_some_iff (a b : Bitmap) :
    bitmap_equal (some a) (some b) = true ↔
      (a.bitmaps.take (min a.n_bitmaps b.n_bitmaps) =
        b.bitmaps.take (min a.n_bitmaps b.n_bitmaps) ∧
       ∀ i, min a.n_bitmaps b.n_bitmaps ≤ i → i < max a.n_bitmaps b.n_bitmaps →
         (if b.n_bitmaps < a.n_bitmaps then a else b).bitmaps.getD i 0 = 0) := by
  have hc : (if b.n_bitmaps < a.n_bitmaps then a else b).n_bitmaps =
      max a.n_bitmaps b.n_bitmaps := by
    split <;> omega
  simp only [bitmap_equal]
  by_cases h : a.bitmaps.take (min a.n_bitmaps b.n_bitmaps) =
      b.bitmaps.take (min a.n_bitmaps b.n_bitmaps)
  · rw [if_neg (not_not_intro h)]
    rw [List.all_eq_true]
    constructor
    · intro hall
      refine ⟨h, fun i h1 h2 => ?_⟩
      have hi : i ∈ List.range' (min a.n_bitmaps b.n_bitmaps)
          ((if b.n_bitmaps < a.n_bitmaps then a else b).n_bitmaps -
            min a.n_bitmaps b.n_bitmaps) := by
        rw [List.mem_range']
        exact ⟨i - min a.n_bitmaps b.n_bitmaps, by omega, by omega⟩
      have := hall i hi
      simpa using this
    · rintro ⟨-, hz⟩ i hi
      rw [List.mem_range'] at hi
      obtain ⟨j, hj, rfl⟩ := hi
      simp only [beq_iff_eq]
      apply hz
      · omega
      · omega
  · rw [if_pos h]
    simp [h]

lemma equal_iff_isset (a b : Bitmap) (ha : a.Valid) (hb : b.Valid) :
    bitmap_equal (some a) (some b) = true ↔
      ∀ n, bitmap_isset (some a) n = bitmap_isset (some b) n := by
  rw [equal_some_iff]
  constructor
  · rintro ⟨hpre, hzero⟩ n
    rw [Bool.eq_iff_iff, isset_iff, isset_iff]
    by_cases h1 : n / 64 < min a.n_bitmaps b.n_bitmaps
    · have hw : a.bitmaps.getD (n / 64) 0 = b.bitmaps.getD (n / 64) 0 := by
        have e1 := getD_take_eq (l := a.bitmaps) (k := min a.n_bitmaps b.n_bitmaps) h1
        have e2 := getD_take_eq (l := b.bitmaps) (k := min a.n_bitmaps b.n_bitmaps) h1
        rw [← e1, ← e2, hpre]
      rw [hw]
      constructor
      · rintro ⟨-, h2⟩
        exact ⟨by omega, h2⟩
      · rintro ⟨-, h2⟩
        exact ⟨by omega, h2⟩
    · by_cases h2 : n / 64 < max a.n_bitmaps b.n_bitmaps
      · have hz := hzero (n / 64) (by omega) h2
        by_cases hab : b.n_bitmaps < a.n_bitmaps
        · rw [if_pos hab] at hz
          constructor
          · rintro ⟨-, hbit⟩
            rw [hz] at hbit
            simp at hbit
          · rintro ⟨hlt, -⟩
            exfalso
            omega
        · rw [if_neg hab] at hz
          constructor
          · rintro ⟨hlt, -⟩
            exfalso
            omega
          · rintro ⟨-, hbit⟩
            rw [hz] at hbit
            simp at hbit
      · constructor
        · rintro ⟨hlt, -⟩
          exfalso
          omega
        · rintro ⟨hlt, -⟩
          exfalso
          omega
  · intro hiss
    have hbits : ∀ i, i < min a.n_bitmaps b.n_bitmaps →
        a.bitmaps.getD i 0 = b.bitmaps.getD i 0 := by
      intro i hi
      rw [word_eq_iff_testBit_eq (valid_word_lt a ha i) (valid_word_lt b hb i)]
      intro r hr
      have h := hiss (i * 64 + r)
      rw [Bool.eq_iff_iff, isset_iff, isset_iff] at h
      have hdiv : (i * 64 + r) / 64 = i := by omega
      have hmod : (i * 64 + r) % 64 = r := by omega
      rw [hdiv, hmod] at h
      rw [Bool.eq_iff_iff]
      constructor
      · intro hx
        exact (h.mp ⟨by omega, hx⟩).2
      · intro hx
        exact (h.mpr ⟨by omega, hx⟩).2
    constructor
    · apply List.ext_getElem?
      intro i
      by_cases hi : i < min a.n_bitmaps b.n_bitmaps
      · rw [List.getElem?_take_of_lt hi, List.getElem?_take_of_lt hi]
        have ha' : i < a.bitmaps.length := by
          have := ha.1
          omega
        have hb' : i < b.bitmaps.length := by
          have := hb.1
          omega
        rw [List.getElem?_eq_getElem ha', List.getElem?_eq_getElem hb']
        have e1 : a.bitmaps[i] = a.bitmaps.getD i 0 := by
          rw [List.getD_eq_getElem?_getD, List.getElem?_eq_getElem ha']
          rfl
        have e2 : b.bitmaps[i] = b.bitmaps.getD i 0 := by
          rw [List.getD_eq_getElem?_getD, List.getElem?_eq_getElem hb']
          rfl
        rw [e1, e2, hbits i hi]
      · rw [List.getElem?_eq_none, List.getElem?_eq_none]
        · rw [List.length_take]
          omega
        · rw [List.length_take]
          omega
    · intro i h1 h2
      by_cases hab : b.n_bitmaps < a.n_bitmaps
      · rw [if_pos hab]
        apply word_zero_of_not_member a ha i (by omega)
        intro r hr
        rw [hiss (i * 64 + r), Bool.eq_false_iff]
        intro hc
        rw [isset_iff] at hc
        obtain ⟨hlt, -⟩ := hc
        have hdiv : (i * 64 + r) / 64 = i := by omega
        rw [hdiv] at hlt
        omega
      · rw [if_neg hab]
        apply word_zero_of_not_member b hb i (by omega)
        intro r hr
        rw [← hiss (i * 64 + r), Bool.eq_false_iff]
        intro hc
        rw [isset_iff] at hc
        obtain ⟨hlt, -⟩ := hc
        have hdiv : (i * 64 + r) / 64 = i := by omega
        rw [hdiv] at hlt
        omega

lemma padZeros_valid (b : Bitmap) (hv : b.Valid) (k : Nat) : (padZeros b k).Valid := by
  constructor
  · simp only [padZeros, List.length_append, List.length_take, List.length_replicate]
    have := hv.1
    omega
  · intro w hw
    simp only [padZeros, List.mem_append] at hw
    rcases hw with hw | hw
    · exact hv.2 w (List.mem_of_mem_take hw)
    · rw [List.mem_replicate] at hw
      rw [hw.2]
      norm_num

lemma padZeros_isset (b : Bitmap) (hv : b.Valid) (k n : Nat) :
    bitmap_isset (some (padZeros b k)) n = bitmap_isset (some b) n := by
  rw [Bool.eq_iff_iff, isset_iff, isset_iff]
  dsimp only [padZeros]
  have hlen : (b.bitmaps.take b.n_bitmaps).length = b.n_bitmaps := by
    rw [List.length_take]
    have := hv.1
    omega
  by_cases h1 : n / 64 < b.n_bitmaps
  · have hlt : n / 64 < (b.bitmaps.take b.n_bitmaps).length := by omega
    have e : (b.bitmaps.take b.n_bitmaps ++ List.replicate k 0).getD (n / 64) 0 =
        b.bitmaps.getD (n / 64) 0 := by
      rw [List.getD_eq_getElem?_getD, List.getElem?_append_left hlt,
          ← List.getD_eq_getElem?_getD, getD_take_eq h1]
    rw [e]
    constructor
    · rintro ⟨-, h2⟩
      exact ⟨h1, h2⟩
    · rintro ⟨-, h2⟩
      exact ⟨by omega, h2⟩
  · by_cases h2 : n / 64 < b.n_bitmaps + k
    · have e : (b.bitmaps.take b.n_bitmaps ++ List.replicate k 0).getD (n / 64) 0 = 0 := by
        rw [List.getD_eq_getElem?_getD, List.getElem?_append_right (by omega), hlen,
            List.getElem?_replicate, if_pos (by omega)]
        rfl
      rw [e]
      constructor
      · rintro ⟨-, h3⟩
        simp at h3
      · rintro ⟨h3, -⟩
        exfalso
        omega
    · constructor
      · rintro ⟨h3, -⟩
        exfalso
        omega
      · rintro ⟨h3, -⟩
        exfalso
        omega

/-- C5: for valid present bitmaps, `bitmap_equal` returns true iff the
overlapping word prefix is bit-for-bit identical and every word of the
longer sequence beyond that prefix is zero; equivalently, iff the logical
member sets observed through `bitmap_isset` coincide at every value — so
equality is independent of backing length, and appending trailing zero
words to one side never changes the result of `bitmap_equal`. -/
theorem C5_equal_structural (a b : Bitmap) (ha : a.Valid) (hb : b.Valid) :
    (bitmap_equal (some a) (some b) = true ↔
      (a.bitmaps.take (min a.n_bitmaps b.n_bitmaps) =
        b.bitmaps.take (min a.n_bitmaps b.n_bitmaps) ∧
       ∀ i, min a.n_bitmaps b.n_bitmaps ≤ i → i < max a.n_bitmaps b.n_bitmaps →
         (if b.n_bitmaps < a.n_bitmaps then a else b).bitmaps.getD i 0 = 0)) ∧
    (bitmap_equal (some a) (some b) = true ↔
      ∀ n, bitmap_isset (some a) n = bitmap_isset (some b) n) ∧
    (∀ k, bitmap_equal (some a) (some (padZeros b k)) =
      bitmap_equal (some a) (some b)) := by
  refine ⟨equal_some_iff a b, equal_iff_isset a b ha hb, fun k => ?_⟩
  rw [Bool.eq_iff_iff, equal_iff_isset a _ ha (padZeros_valid b hb k),
      equal_iff_isset a b ha hb]
  constructor
  · intro h n
    rw [h n, padZeros_isset b hb k n]
  · intro h n
    rw [h n, padZeros_isset b hb k n]

theorem C5_witness :
    Bitmap.Valid ⟨[32], 1⟩ ∧ Bitmap.Valid ⟨[32, 0], 2⟩ ∧
    ((bitmap_equal (some ⟨[32], 1⟩) (some ⟨[32, 0], 2⟩) = true ↔
      ((⟨[32], 1⟩ : Bitmap).bitmaps.take
          (min (⟨[32], 1⟩ : Bitmap).n_bitmaps (⟨[32, 0], 2⟩ : Bitmap).n_bitmaps) =
        (⟨[32, 0], 2⟩ : Bitmap).bitmaps.take
          (min (⟨[32], 1⟩ : Bitmap).n_bitmaps (⟨[32, 0], 2⟩ : Bitmap).n_bitmaps) ∧
       ∀ i, min (⟨[32], 1⟩ : Bitmap).n_bitmaps (⟨[32, 0], 2⟩ : Bitmap).n_bitmaps ≤ i →
         i < max (⟨[32], 1⟩ : Bitmap).n_bitmaps (⟨[32, 0], 2⟩ : Bitmap).n_bitmaps →
         (if (⟨[32, 0], 2⟩ : Bitmap).n_bitmaps < (⟨[32], 1⟩ : Bitmap).n_bitmaps
            then (⟨[32], 1⟩ : Bitmap)
            else (⟨[32, 0], 2⟩ : Bitmap)).bitmaps.getD i 0 = 0)) ∧
    (bitmap_equal (some ⟨[32], 1⟩) (some ⟨[32, 0], 2⟩) = true ↔
      ∀ n, bitmap_isset (some ⟨[32], 1⟩) n = bitmap_isset (some ⟨[32, 0], 2⟩) n) ∧
    (∀ k, bitmap_equal (some ⟨[32], 1⟩) (some (padZeros ⟨[32, 0], 2⟩ k)) =
      bitmap_equal (some ⟨[32], 1⟩) (some ⟨[32, 0], 2⟩))) :=
  ⟨by decide, by decide,
   C5_equal_structural ⟨[32], 1⟩ ⟨[32, 0], 2⟩ (by decide) (by decide)⟩

/-! ## C9 -/

lemma bitmap_set_cases (allocOk : Bool) (b : Bitmap) (n : Nat) :
    (BITMAPS_MAX_ENTRY < n ∧ bitmap_set allocOk b n = (-ERANGE, b)) ∨
    (n ≤ BITMAPS_MAX_ENTRY ∧ b.n_bitmaps ≤ n / 64 ∧
      bitmap_set allocOk b n = (-ENOMEM, b)) ∨
    (n ≤ BITMAPS_MAX_ENTRY ∧ b.n_bitmaps ≤ n / 64 ∧
      bitmap_set allocOk b n =
        (0, ⟨(greedy_realloc0 b.bitmaps (n / 64 + 1)).set (n / 64)
              ((greedy_realloc0 b.bitmaps (n / 64 + 1)).getD (n / 64) 0 |||
                (1 <<< (n % 64))), n / 64 + 1⟩)) ∨
    (n ≤ BITMAPS_MAX_ENTRY ∧ n / 64 < b.n_bitmaps ∧
      bitmap_set allocOk b n =
        (0, ⟨b.bitmaps.set (n / 64)
              (b.bitmaps.getD (n / 64) 0 ||| (1 <<< (n % 64))), b.n_bitmaps⟩)) := by
  by_cases h1 : n > BITMAPS_MAX_ENTRY
  · left
    refine ⟨h1, ?_⟩
    unfold bitmap_set
    rw [if_pos h1]
  · by_cases hoff : b.n_bitmaps ≤ BITMAP_NUM_TO_OFFSET n
    · by_cases hmem : b.bitmaps_allocated < BITMAP_NUM_TO_OFFSET n + 1 ∧ allocOk = false
      · right
        left
        refine ⟨by omega, hoff, ?_⟩
        simp [bitmap_set, h1, hoff, hmem]
      · right
        right
        left
        refine ⟨by omega, hoff, ?_⟩
        unfold BITMAP_NUM_TO_OFFSET at hoff hmem
        simp [bitmap_set, h1, hoff, hmem, BITMAP_NUM_TO_OFFSET, BITMAP_NUM_TO_REM]
    · right
      right
      right
      refine ⟨by omega, by have := hoff; unfold BITMAP_NUM_TO_OFFSET at this; omega, ?_⟩
      have hoff2 := hoff
      unfold BITMAP_NUM_TO_OFFSET at hoff2
      simp [bitmap_set, h1, hoff2, BITMAP_NUM_TO_OFFSET, BITMAP_NUM_TO_REM]

lemma simStep_inv (p : Bitmap × Nat) (op : Op)
    (h1 : p.1.n_bitmaps = p.2) (h2 : p.1.n_bitmaps ≤ p.1.bitmaps.length) :
    (simStep p op).1.n_bitmaps = (simStep p op).2 ∧
    (simStep p op).1.n_bitmaps ≤ (simStep p op).1.bitmaps.length := by
  obtain ⟨b, t⟩ := p
  simp only at h1 h2
  cases op with
  | unset n =>
    refine ⟨?_, ?_⟩
    · show (bitmap_unset_core b n).n_bitmaps = t
      rw [unset_core_n_bitmaps]
      exact h1
    · show (bitmap_unset_core b n).n_bitmaps ≤ (bitmap_unset_core b n).bitmaps.length
      rw [unset_core_n_bitmaps, unset_core_length]
      exact h2
  | clear => exact ⟨rfl, Nat.le_refl 0⟩
  | set n ok =>
    rcases bitmap_set_cases ok b n with ⟨hgt, heq⟩ | ⟨hle, hoff, heq⟩ |
      ⟨hle, hoff, heq⟩ | ⟨hle, hoff, heq⟩
    · constructor
      · show (bitmap_set ok b n).2.n_bitmaps =
          (if (bitmap_set ok b n).1 = 0 then max t (BITMAP_NUM_TO_OFFSET n + 1) else t)
        rw [heq, if_neg (by decide : ¬((-ERANGE : Int) = 0))]
        exact h1
      · show (bitmap_set ok b n).2.n_bitmaps ≤ (bitmap_set ok b n).2.bitmaps.length
        rw [heq]
        exact h2
    · constructor
      · show (bitmap_set ok b n).2.n_bitmaps =
          (if (bitmap_set ok b n).1 = 0 then max t (BITMAP_NUM_TO_OFFSET n + 1) else t)
        rw [heq, if_neg (by decide : ¬((-ENOMEM : Int) = 0))]
        exact h1
      · show (bitmap_set ok b n).2.n_bitmaps ≤ (bitmap_set ok b n).2.bitmaps.length
        rw [heq]
        exact h2
    · constructor
      · show (bitmap_set ok b n).2.n_bitmaps =
          (if (bitmap_set ok b n).1 = 0 then max t (BITMAP_NUM_TO_OFFSET n + 1) else t)
        rw [heq, if_pos rfl]
        show n / 64 + 1 = max t (BITMAP_NUM_TO_OFFSET n + 1)
        unfold BITMAP_NUM_TO_OFFSET
        omega
      · show (bitmap_set ok b n).2.n_bitmaps ≤ (bitmap_set ok b n).2.bitmaps.length
        rw [heq]
        show n / 64 + 1 ≤ ((greedy_realloc0 b.bitmaps (n / 64 + 1)).set (n / 64) _).length
        rw [List.length_set]
        exact greedy_length_ge b.bitmaps (n / 64 + 1)
    · constructor
      · show (bitmap_set ok b n).2.n_bitmaps =
          (if (bitmap_set ok b n).1 = 0 then max t (BITMAP_NUM_TO_OFFSET n + 1) else t)
        rw [heq, if_pos rfl]
        show b.n_bitmaps = max t (BITMAP_NUM_TO_OFFSET n + 1)
        unfold BITMAP_NUM_TO_OFFSET
        omega
      · show (bitmap_set ok b n).2.n_bitmaps ≤ (bitmap_set ok b n).2.bitmaps.length
        rw [heq]
        show b.n_bitmaps ≤ (b.bitmaps.set (n / 64) _).length
        rw [List.length_set]
        exact h2

lemma foldl_sim_fst : ∀ (ops : List Op) (p : Bitmap × Nat),
    (List.foldl simStep p ops).1 = List.foldl applyOp p.1 ops := by
  intro ops
  induction ops with
  | nil => intro p; rfl
  | cons op rest ih =>
    intro p
    obtain ⟨b, t⟩ := p
    rw [List.foldl_cons, List.foldl_cons, ih]
    cases op <;> rfl

lemma sim_inv : ∀ (ops : List Op) (p : Bitmap × Nat),
    p.1.n_bitmaps = p.2 → p.1.n_bitmaps ≤ p.1.bitmaps.length →
    (List.foldl simStep p ops).1.n_bitmaps = (List.foldl simStep p ops).2 ∧
    (List.foldl simStep p ops).1.n_bitmaps ≤
      (List.foldl simStep p ops).1.bitmaps.length := by
  intro ops
  induction ops with
  | nil => intro p h1 h2; exact ⟨h1, h2⟩
  | cons op rest ih =>
    intro p h1 h2
    rw [List.foldl_cons]
    exact ih _ (simStep_inv p op h1 h2).1 (simStep_inv p op h1 h2).2

/-- C9: for every finite operation sequence from a fresh bitmap, the
logical length never exceeds the allocated capacity, and it equals the
ghost quantity tracked by `sim`: the highest word index touched by a
successful `set` since creation or the last `clear`, plus one (0 when there
has been none) — even though growth may over-allocate capacity. -/
theorem C9_length_invariant (ops : List Op) :
    (applyOps ops).n_bitmaps ≤ (applyOps ops).bitmaps_allocated ∧
    (applyOps ops).n_bitmaps = (sim ops).2 := by
  have hfst := foldl_sim_fst ops (bitmap_new, 0)
  have hinv := sim_inv ops (bitmap_new, 0) rfl (Nat.le_refl 0)
  constructor
  · show (applyOps ops).n_bitmaps ≤ (applyOps ops).bitmaps.length
    unfold applyOps
    rw [← hfst]
    exact hinv.2
  · unfold applyOps sim
    rw [← hfst]
    exact hinv.1

/-! ## C6 -/

lemma scanWord_eq_of_lt {w rem : Nat} (h : rem < 64) :
    scanWord w rem =
      if w &&& (1 <<< rem) ≠ 0 then some rem else scanWord w (rem + 1) := by
  unfold scanWord
  have he : 64 - rem = (64 - (rem + 1)) + 1 := by omega
  rw [he]
  rfl

lemma scanWord_eq_of_ge {w rem : Nat} (h : 64 ≤ rem) : scanWord w rem = none := by
  unfold scanWord
  rw [Nat.sub_eq_zero_of_le h]
  rfl

lemma scanWord_spec : ∀ (k : Nat) (w rem : Nat), 64 - rem = k →
    (∀ r, scanWord w rem = some r →
      rem ≤ r ∧ r < 64 ∧ w.testBit r ∧
      ∀ j, rem ≤ j → j < r → w.testBit j = false) ∧
    (scanWord w rem = none → ∀ j, rem ≤ j → j < 64 → w.testBit j = false) := by
  intro k
  induction k with
  | zero =>
    intro w rem hk
    have hge : 64 ≤ rem := by omega
    rw [scanWord_eq_of_ge hge]
    refine ⟨fun r hr => ?_, fun _ j h1 h2 => ?_⟩
    · cases hr
    · omega
  | succ k ih =>
    intro w rem hk
    have hlt : rem < 64 := by omega
    rw [scanWord_eq_of_lt hlt]
    by_cases hbit : w &&& (1 <<< rem) ≠ 0
    · rw [if_pos hbit]
      refine ⟨?_, ?_⟩
      · intro r hr
        injection hr with hr
        subst hr
        exact ⟨Nat.le_refl rem, hlt, (and_shift_ne_zero_iff w rem).mp hbit,
          fun j h1 h2 => by omega⟩
      · intro hr
        cases hr
    · rw [if_neg hbit]
      have hb0 : w.testBit rem = false := by
        rw [Bool.eq_false_iff]
        intro hc
        exact hbit ((and_shift_ne_zero_iff w rem).mpr hc)
      obtain ⟨hsome, hnone⟩ := ih w (rem + 1) (by omega)
      refine ⟨?_, ?_⟩
      · intro r hr
        obtain ⟨h1, h2, h3, h4⟩ := hsome r hr
        refine ⟨by omega, h2, h3, ?_⟩
        intro j hj1 hj2
        rcases Nat.eq_or_lt_of_le hj1 with he | hlt2
        · rw [← he]
          exact hb0
        · exact h4 j (by omega) hj2
      · intro hr j hj1 hj2
        rcases Nat.eq_or_lt_of_le hj1 with he | hlt2
        · rw [← he]
          exact hb0
        · exact hnone hr j (by omega) hj2

lemma isset_false_of_word (b : Bitmap) (j : Nat)
    (h : (b.bitmaps.getD (j / 64) 0).testBit (j % 64) = false) :
    bitmap_isset (some b) j = false := by
  rw [Bool.eq_false_iff]
  intro hc
  rw [isset_iff] at hc
  obtain ⟨-, h2⟩ := hc
  rw [h] at h2
  simp at h2

lemma isset_false_of_ge (b : Bitmap) (j : Nat) (h : b.n_bitmaps ≤ j / 64) :
    bitmap_isset (some b) j = false := by
  rw [Bool.eq_false_iff]
  intro hc
  rw [isset_iff] at hc
  obtain ⟨h1, -⟩ := hc
  omega

lemma bitmap_scan_eq_of_lt {b : Bitmap} {offset rem : Nat} (h : offset < b.n_bitmaps) :
    bitmap_scan b offset rem =
      if b.bitmaps.getD offset 0 ≠ 0 then
        match scanWord (b.bitmaps.getD offset 0) rem with
        | some r => some (offset, r)
        | none => bitmap_scan b (offset + 1) 0
      else bitmap_scan b (offset + 1) 0 := by
  unfold bitmap_scan
  have he : b.n_bitmaps - offset = (b.n_bitmaps - (offset + 1)) + 1 := by omega
  rw [he]
  rfl

lemma bitmap_scan_eq_of_ge {b : Bitmap} {offset rem : Nat} (h : b.n_bitmaps ≤ offset) :
    bitmap_scan b offset rem = none := by
  unfold bitmap_scan
  rw [Nat.sub_eq_zero_of_le h]
  rfl

lemma bitmap_scan_spec : ∀ (k : Nat) (b : Bitmap) (offset rem : Nat),
    b.n_bitmaps - offset = k → rem < 64 →
    (∀ o r, bitmap_scan b offset rem = some (o, r) →
      offset ≤ o ∧ o < b.n_bitmaps ∧ r < 64 ∧
      (b.bitmaps.getD o 0).testBit r ∧
      offset * 64 + rem ≤ o * 64 + r ∧
      ∀ j, offset * 64 + rem ≤ j → j < o * 64 + r →
        bitmap_isset (some b) j = false) ∧
    (bitmap_scan b offset rem = none →
      ∀ j, offset * 64 + rem ≤ j → bitmap_isset (some b) j = false) := by
  intro k
  induction k with
  | zero =>
    intro b offset rem hk hrem
    have hge : b.n_bitmaps ≤ offset := by omega
    rw [bitmap_scan_eq_of_ge hge]
    refine ⟨fun o r hr => ?_, fun _ j hj => ?_⟩
    · cases hr
    · exact isset_false_of_ge b j (by omega)
  | succ k ih =>
    intro b offset rem hk hrem
    have hofflt : offset < b.n_bitmaps := by omega
    rw [bitmap_scan_eq_of_lt hofflt]
    obtain ⟨ihs, ihn⟩ := ih b (offset + 1) 0 (by omega) (by omega)
    have hinword : ∀ j, offset * 64 + rem ≤ j → j < (offset + 1) * 64 →
        (b.bitmaps.getD offset 0).testBit (j % 64) = false →
        bitmap_isset (some b) j = false := by
      intro j hj1 hj2 hb
      apply isset_false_of_word
      have hd : j / 64 = offset := by omega
      rw [hd]
      exact hb
    by_cases hw : b.bitmaps.getD offset 0 ≠ 0
    · rw [if_pos hw]
      cases hsw : scanWord (b.bitmaps.getD offset 0) rem with
      | some r0 =>
        obtain ⟨hs1, hs2, hs3, hs4⟩ :=
          (scanWord_spec (64 - rem) (b.bitmaps.getD offset 0) rem rfl).1 r0 hsw
        refine ⟨fun o r hr => ?_, fun hr => ?_⟩
        · injection hr with hr
          injection hr with hro hrr
          subst hro
          subst hrr
          refine ⟨Nat.le_refl offset, hofflt, hs2, hs3, by omega, ?_⟩
          intro j hj1 hj2
          apply hinword j hj1 (by omega)
          exact hs4 (j % 64) (by omega) (by omega)
        · cases hr
      | none =>
        have hnobit := (scanWord_spec (64 - rem) (b.bitmaps.getD offset 0) rem rfl).2 hsw
        have hword : ∀ j, offset * 64 + rem ≤ j → j < (offset + 1) * 64 →
            bitmap_isset (some b) j = false := by
          intro j hj1 hj2
          apply hinword j hj1 hj2
          exact hnobit (j % 64) (by omega) (by omega)
        refine ⟨fun o r hr => ?_, fun hr j hj => ?_⟩
        · obtain ⟨h1, h2, h3, h4, h5, h6⟩ := ihs o r hr
          refine ⟨by omega, h2, h3, h4, by omega, ?_⟩
          intro j hj1 hj2
          by_cases hjw : j < (offset + 1) * 64
          · exact hword j hj1 hjw
          · exact h6 j (by omega) hj2
        · by_cases hjw : j < (offset + 1) * 64
          · exact hword j hj hjw
          · exact ihn hr j (by omega)
    · rw [if_neg hw]
      have hw0 : b.bitmaps.getD offset 0 = 0 := by
        by_contra hc
        exact hw hc
      have hword : ∀ j, offset * 64 + rem ≤ j → j < (offset + 1) * 64 →
          bitmap_isset (some b) j = false := by
        intro j hj1 hj2
        apply hinword j hj1 hj2
        rw [hw0, Nat.zero_testBit]
      refine ⟨fun o r hr => ?_, fun hr j hj => ?_⟩
      · obtain ⟨h1, h2, h3, h4, h5, h6⟩ := ihs o r hr
        refine ⟨by omega, h2, h3, h4, by omega, ?_⟩
        intro j hj1 hj2
        by_cases hjw : j < (offset + 1) * 64
        · exact hword j hj1 hjw
        · exact h6 j (by omega) hj2
      · by_cases hjw : j < (offset + 1) * 64
        · exact hword j hj hjw
        · exact ihn hr j (by omega)

lemma iterate_loop_spec : ∀ (fuel : Nat) (b : Bitmap) (i n0 : Nat),
    b.n_bitmaps * 64 < BITMAP_END →
    i ≤ b.n_bitmaps * 64 →
    b.n_bitmaps * 64 + 1 ≤ i + fuel →
    (∀ m, m ∈ bitmap_iterate_loop (some b) fuel i n0 ↔
      (i ≤ m ∧ bitmap_isset (some b) m = true)) ∧
    List.Chain' (fun x y => x < y) (bitmap_iterate_loop (some b) fuel i n0) := by
  intro fuel
  induction fuel with
  | zero =>
    intro b i n0 hsmall hi hfuel
    exfalso
    omega
  | succ fuel ih =>
    intro b i n0 hsmall hi hfuel
    have hiEnd : ¬(i = BITMAP_END) := by omega
    cases hscan : bitmap_scan b (i / 64) (i % 64) with
    | some pr =>
      obtain ⟨o, r⟩ := pr
      obtain ⟨ho1, ho2, hr64, hbit, hbound, hmin⟩ :=
        (bitmap_scan_spec (b.n_bitmaps - i / 64) b (i / 64) (i % 64) rfl
          (by omega)).1 o r hscan
      have hdm := Nat.div_add_mod i 64
      have him : i ≤ o * 64 + r := by omega
      have hmlt : o * 64 + r < b.n_bitmaps * 64 := by omega
      have hit : bitmap_iterate (some b) i n0 = (true, o * 64 + r + 1, o * 64 + r) := by
        simp [bitmap_iterate, hiEnd, BITMAP_NUM_TO_OFFSET, BITMAP_NUM_TO_REM, hscan,
          BITMAP_OFFSET_TO_NUM]
      have hstep : bitmap_iterate_loop (some b) (fuel + 1) i n0 =
          (o * 64 + r) :: bitmap_iterate_loop (some b) fuel (o * 64 + r + 1)
            (o * 64 + r) := by
        simp only [bitmap_iterate_loop, hit]
      have hmem : bitmap_isset (some b) (o * 64 + r) = true := by
        rw [isset_iff]
        have hd : (o * 64 + r) / 64 = o := by omega
        have hm2 : (o * 64 + r) % 64 = r := by omega
        rw [hd, hm2]
        exact ⟨ho2, hbit⟩
      obtain ⟨ihmem, ihchain⟩ :=
        ih b (o * 64 + r + 1) (o * 64 + r) hsmall (by omega) (by omega)
      rw [hstep]
      constructor
      · intro m
        rw [List.mem_cons, ihmem m]
        constructor
        · rintro (rfl | ⟨h1, h2⟩)
          · exact ⟨him, hmem⟩
          · exact ⟨by omega, h2⟩
        · rintro ⟨h1, h2⟩
          by_cases hc : m < o * 64 + r
          · exfalso
            have hf := hmin m (by omega) hc
            rw [hf] at h2
            simp at h2
          · by_cases he : m = o * 64 + r
            · exact Or.inl he
            · exact Or.inr ⟨by omega, h2⟩
      · rw [List.chain'_cons']
        refine ⟨?_, ihchain⟩
        intro y hy
        have hy2 := (ihmem y).mp (List.mem_of_mem_head? hy)
        omega
    | none =>
      have hnone := (bitmap_scan_spec (b.n_bitmaps - i / 64) b (i / 64) (i % 64) rfl
        (by omega)).2 hscan
      have hit : bitmap_iterate (some b) i n0 = (false, BITMAP_END, n0) := by
        simp [bitmap_iterate, hiEnd, BITMAP_NUM_TO_OFFSET, BITMAP_NUM_TO_REM, hscan]
      have hstep : bitmap_iterate_loop (some b) (fuel + 1) i n0 = [] := by
        simp only [bitmap_iterate_loop, hit]
      rw [hstep]
      constructor
      · intro m
        constructor
        · intro hm
          cases hm
        · rintro ⟨h1, h2⟩
          have hdm := Nat.div_add_mod i 64
          have hf := hnone m (by omega)
          rw [hf] at h2
          simp at h2
      · exact List.chain'_nil

lemma applyOp_n_le (b : Bitmap) (op : Op) (h : b.n_bitmaps ≤ 1024) :
    (applyOp b op).n_bitmaps ≤ 1024 := by
  cases op with
  | unset n =>
    show (bitmap_unset_core b n).n_bitmaps ≤ 1024
    rw [unset_core_n_bitmaps]
    exact h
  | clear => exact Nat.zero_le 1024
  | set n ok =>
    show (bitmap_set ok b n).2.n_bitmaps ≤ 1024
    rcases bitmap_set_cases ok b n with ⟨-, heq⟩ | ⟨-, -, heq⟩ | ⟨hle, -, heq⟩ |
      ⟨-, -, heq⟩
    · rw [heq]
      exact h
    · rw [heq]
      exact h
    · rw [heq]
      show n / 64 + 1 ≤ 1024
      have hmax : BITMAPS_MAX_ENTRY = 65535 := rfl
      omega
    · rw [heq]
      exact h

lemma foldl_n_le : ∀ (ops : List Op) (b : Bitmap), b.n_bitmaps ≤ 1024 →
    (List.foldl applyOp b ops).n_bitmaps ≤ 1024 := by
  intro ops
  induction ops with
  | nil => exact fun b h => h
  | cons op rest ih =>
    intro b h
    rw [List.foldl_cons]
    exact ih _ (applyOp_n_le b op h)

/-- C6: for any bitmap built by a finite sequence of operations from a
fresh bitmap, a full traversal threading one `bitmap_iterate` cursor from 0
until exhaustion yields exactly the integers on which `bitmap_isset` is
true, in strictly ascending order (hence with no duplicates). -/
theorem C6_iterate_enumerates (ops : List Op) :
    List.Chain' (fun x y => x < y) (bitmap_iterate_all (some (applyOps ops))) ∧
    ∀ n, n ∈ bitmap_iterate_all (some (applyOps ops)) ↔
      bitmap_isset (some (applyOps ops)) n = true := by
  have hn : (applyOps ops).n_bitmaps ≤ 1024 :=
    foldl_n_le ops bitmap_new (Nat.zero_le 1024)
  have hE : BITMAP_END = 4294967295 := by norm_num [BITMAP_END]
  have hsmall : (applyOps ops).n_bitmaps * 64 < BITMAP_END := by omega
  obtain ⟨hmem, hchain⟩ := iterate_loop_spec ((applyOps ops).n_bitmaps * 64 + 1)
    (applyOps ops) 0 0 hsmall (Nat.zero_le _) (by omega)
  have hall : bitmap_iterate_all (some (applyOps ops)) =
      bitmap_iterate_loop (some (applyOps ops))
        ((applyOps ops).n_bitmaps * 64 + 1) 0 0 := rfl
  rw [hall]
  refine ⟨hchain, fun n => ?_⟩
  rw [hmem n]
  constructor
  · exact fun h => h.2
  · exact fun h => ⟨Nat.zero_le n, h⟩
